import Mathlib

/-!
Verification of the markdown-to-HTML conversion core (`src/inline_markdown.py`).
Strings are modelled as lists of characters; Python string operations
(`split`, `strip`, `startswith`, re-based extraction) are embedded as
executable Lean functions; exceptions become `Except` values.
-/

/-- A Python string, modelled as a list of characters. -/
abbrev Str := List Char

/-- Coerce a Lean string literal to the `Str` model. -/
def str (s : String) : Str := s.data

/-- The whitespace test used by Python's argument-less `str.strip` /
`str.lstrip` (ASCII fragment, which covers all inputs in this development). -/
def isPySpace (c : Char) : Bool :=
  c == ' ' || c == '\t' || c == '\n' || c == '\r' || c == '\x0b' || c == '\x0c'

/-- Python `s.strip()`: drop leading and trailing whitespace. -/
def stripStr (s : Str) : Str :=
  ((s.dropWhile isPySpace).reverse.dropWhile isPySpace).reverse

/-- Split at the first occurrence of `sep` (Python `s.split(sep, 1)` when the
separator occurs; `none` models the single-element result when it does not).
Returns the text before the first occurrence and the text after it. -/
def splitFirst (sep : Str) : Str → Option (Str × Str)
  | [] => if sep.isPrefixOf ([] : Str) then some ([], []) else none
  | c :: cs =>
    if sep.isPrefixOf (c :: cs) then some ([], (c :: cs).drop sep.length)
    else
      match splitFirst sep cs with
      | none => none
      | some (p, r) => some (c :: p, r)

/-- Fuel-driven worker for `splitOnStr`; `fuel ≥ s.length` makes it agree with
Python's `str.split` on a non-empty separator. -/
def splitOnFuel (sep : Str) : Nat → Str → List Str
  | 0, s => [s]
  | fuel + 1, s =>
    match splitFirst sep s with
    | none => [s]
    | some (p, r) => p :: splitOnFuel sep fuel r

/-- Python `s.split(sep)` for a non-empty separator `sep`. -/
def splitOnStr (sep s : Str) : List Str := splitOnFuel sep s.length s

/-- Fuel-driven worker for `countOccs`. -/
def countOccsFuel (sep : Str) : Nat → Str → Nat
  | 0, _ => 0
  | fuel + 1, s =>
    match splitFirst sep s with
    | none => 0
    | some (_, r) => 1 + countOccsFuel sep fuel r

/-- The number of non-overlapping occurrences of `sep` in `s` (Python
`s.count(sep)` for a non-empty `sep`); used to state the delimiter-parity
hypotheses of the spec. -/
def countOccs (sep s : Str) : Nat := countOccsFuel sep s.length s

/-- The inline span kinds. Modelled from the spec: the `TextType` enum lives in
`textnode.py`, which is outside the provided sources; the spec lists the six
span kinds Text, Bold, Italic, Code, Image, Link. -/
inductive TextType where
  | text
  | bold
  | italic
  | code
  | link
  | image
deriving DecidableEq

/-- An inline span. Modelled from the spec: the `TextNode` data holder lives in
`textnode.py`, outside the provided sources; per the spec it carries the span
text, its kind, and (for images/links) a url, defaulting to none. -/
structure TextNode where
  text : Str
  text_type : TextType
  url : Option Str
deriving DecidableEq

/-- A render-tree node. Modelled from the spec: `htmlnode.py` is outside the
provided sources; the spec describes a leaf with a tag (possibly absent, for
raw text) and a literal value, and a parent with a tag and an ordered list of
children. -/
inductive HTMLNode where
  | leaf (tag : Option Str) (value : Str)
  | parent (tag : Str) (children : List HTMLNode)

deriving instance DecidableEq for Except

/-- Block structural types (`BlockType` in `inline_markdown.py`). -/
inductive BlockType where
  | paragraph
  | heading
  | code
  | quote
  | unordered_list
  | ordered_list
deriving DecidableEq

/-- `markdown_to_blocks` from `inline_markdown.py`: split on the blank-line
separator, skip fragments equal to the empty string, strip each surviving
fragment. This helper is the loop body. -/
def filterBlocks : List Str → List Str
  | [] => []
  | b :: bs => if b = [] then filterBlocks bs else stripStr b :: filterBlocks bs

/-- `markdown_to_blocks` from `inline_markdown.py`. -/
def markdown_to_blocks (markdown : Str) : List Str :=
  filterBlocks (splitOnStr (str "\n\n") markdown)

/-- The heading test of `block_to_block_type`: the guard `block.startswith("#")`
together with the regex `^#{1,6} ` — equivalently, the maximal run of leading
hash marks has length 1 to 6 and is followed by a space. -/
def isHeading (block : Str) : Bool :=
  let l := (block.takeWhile (· == '#')).length
  1 ≤ l && l ≤ 6 && (str " ").isPrefixOf (block.drop l)

/-- The code-fence test of `block_to_block_type`. -/
def isCodeBlock (block : Str) : Bool :=
  (str "```").isPrefixOf block && (str "```").isSuffixOf block

/-- The quote test of `block_to_block_type`: every line starts with a marker. -/
def isQuoteLines (lines : List Str) : Bool :=
  lines.all (fun l => (str ">").isPrefixOf l)

/-- The unordered-list test of `block_to_block_type`. -/
def isULLines (lines : List Str) : Bool :=
  lines.all (fun l => (str "- ").isPrefixOf l)

/-- The literal line marker of an ordered list, Python `f"{n}. "`. -/
def olMarker (n : Nat) : Str := (Nat.repr n).data ++ str ". "

/-- The ordered-list loop of `block_to_block_type`: line `i` (0-indexed) must
start with `olMarker (i+1)`; `n` is the expected number of the first line. -/
def olCheck (n : Nat) : List Str → Bool
  | [] => true
  | l :: ls => (olMarker n).isPrefixOf l && olCheck (n + 1) ls

/-- The ordered-list test of `block_to_block_type`, including the source's
`len(lines) > 0` conjunct. -/
def isOLLines (lines : List Str) : Bool :=
  olCheck 1 lines && decide (0 < lines.length)

/-- `block_to_block_type` from `inline_markdown.py`: the fixed precedence
heading, code, quote, unordered list, ordered list, paragraph. -/
def block_to_block_type (block : Str) : BlockType :=
  if isHeading block then .heading
  else if isCodeBlock block then .code
  else
    let lines := splitOnStr (str "\n") block
    if isQuoteLines lines then .quote
    else if isULLines lines then .unordered_list
    else if isOLLines lines then .ordered_list
    else .paragraph

/-- The error message of the delimiter pass (`split_nodes_delimiter`). -/
def delimErrMsg : Str := str "invalid markdown, formatted section not closed"

/-- The error message of the image pass (`split_nodes_image`). -/
def imageErrMsg : Str := str "invalid markdown, image section not closed"

/-- The error message of the link pass (`split_nodes_link`). -/
def linkErrMsg : Str := str "invalid markdown, link section not closed"

/-- The per-string body of `split_nodes_delimiter`: the enumerated loop over
`sections` that skips empty segments and alternates text/marked spans. -/
def delimSections (sections : List Str) (text_type : TextType) : List TextNode :=
  sections.enum.filterMap fun p =>
    if p.2 = [] then none
    else some ⟨p.2, if p.1 % 2 = 0 then .text else text_type, none⟩

/-- `split_nodes_delimiter` from `inline_markdown.py`: non-text nodes pass
through; a text node is split on the delimiter, an even-length section list is
the unclosed-delimiter error, otherwise segments alternate plain/marked with
empty segments dropped. -/
def split_nodes_delimiter (old_nodes : List TextNode) (delimiter : Str)
    (text_type : TextType) : Except Str (List TextNode) :=
  match old_nodes with
  | [] => .ok []
  | n :: rest =>
    if n.text_type ≠ .text then
      (split_nodes_delimiter rest delimiter text_type).map (n :: ·)
    else
      let sections := splitOnStr delimiter n.text
      if sections.length % 2 = 0 then .error delimErrMsg
      else
        (split_nodes_delimiter rest delimiter text_type).map
          (delimSections sections text_type ++ ·)

/-- Character class of the regex fragment matching image alt text and link
labels: anything but square brackets. -/
def notBracket (c : Char) : Bool := !(c == '[' || c == ']')

/-- Character class of the regex fragment matching urls: anything but
parentheses. -/
def notParen (c : Char) : Bool := !(c == '(' || c == ')')

/-- The literal image syntax `![alt](url)` (Python
`f"![{image[0]}]({image[1]})"`). -/
def imageLit (alt url : Str) : Str :=
  str "![" ++ alt ++ str "](" ++ url ++ str ")"

/-- The literal link syntax `[text](url)` (Python
`f"[{link[0]}]({link[1]})"`). -/
def linkLit (label url : Str) : Str :=
  str "[" ++ label ++ str "](" ++ url ++ str ")"

/-- Require the two given characters at the head of the string and return the
rest. -/
def expectTwo (a b : Char) : Str → Option Str
  | c1 :: c2 :: rest => if c1 = a ∧ c2 = b then some rest else none
  | _ => none

/-- Require the given character at the head of the string and return the
rest. -/
def expectOne (a : Char) : Str → Option Str
  | c1 :: rest => if c1 = a then some rest else none
  | _ => none

/-- The tail of the regexes shared by images and links: after the opening
bracket, a greedy bracket-free run (the label), `](`, a greedy paren-free run
(the url), `)`. Returns the label, the url and the rest of the string. -/
def matchBodyAt (r : Str) : Option (Str × Str × Str) :=
  (expectTwo ']' '(' (r.dropWhile notBracket)).bind fun r2 =>
    (expectOne ')' (r2.dropWhile notParen)).bind fun rest =>
      some (r.takeWhile notBracket, r2.takeWhile notParen, rest)

/-- Match the image regex of `extract_markdown_images` at the head of the
string: literally `![`, then a label/url body. -/
def matchImageAt : Str → Option (Str × Str × Str)
  | c1 :: c2 :: r => if c1 = '!' ∧ c2 = '[' then matchBodyAt r else none
  | _ => none

/-- Match the link regex of `extract_markdown_links` at the head of the string,
ignoring the lookbehind (handled by the caller): `[`, then a label/url body. -/
def matchLinkAt : Str → Option (Str × Str × Str)
  | c1 :: r => if c1 = '[' then matchBodyAt r else none
  | _ => none

/-- Leftmost image-regex match in the string: returns the text before the
match, the alt text, the url, and the text after the match. -/
def findImage : Str → Option (Str × Str × Str × Str)
  | [] => none
  | c :: cs =>
    match matchImageAt (c :: cs) with
    | some (alt, url, rest) => some ([], alt, url, rest)
    | none =>
      match findImage cs with
      | none => none
      | some (pre, alt, url, rest) => some (c :: pre, alt, url, rest)

/-- Leftmost link-regex match, threading the previous character for the
negative lookbehind `(?<!!)` on the opening bracket. -/
def findLink : Option Char → Str → Option (Str × Str × Str × Str)
  | _, [] => none
  | prev, c :: cs =>
    match if prev = some '!' then none else matchLinkAt (c :: cs) with
    | some (label, url, rest) => some ([], label, url, rest)
    | none =>
      match findLink (some c) cs with
      | none => none
      | some (pre, label, url, rest) => some (c :: pre, label, url, rest)

/-- Fuel-driven worker for `extract_markdown_images`: repeated leftmost
non-overlapping matches, as `re.findall`. -/
def extractImagesFuel : Nat → Str → List (Str × Str)
  | 0, _ => []
  | fuel + 1, s =>
    match findImage s with
    | none => []
    | some (_, alt, url, rest) => (alt, url) :: extractImagesFuel fuel rest

/-- `extract_markdown_images` from `inline_markdown.py`: all non-overlapping
matches of the image regex, in left-to-right order. -/
def extract_markdown_images (text : Str) : List (Str × Str) :=
  extractImagesFuel text.length text

/-- Fuel-driven worker for `extract_markdown_links`; after a match, scanning
resumes after the closing parenthesis, which becomes the lookbehind context. -/
def extractLinksFuel : Nat → Option Char → Str → List (Str × Str)
  | 0, _, _ => []
  | fuel + 1, prev, s =>
    match findLink prev s with
    | none => []
    | some (_, label, url, rest) => (label, url) :: extractLinksFuel fuel (some ')') rest

/-- `extract_markdown_links` from `inline_markdown.py`: all non-overlapping
matches of the link regex (with its negative lookbehind), in order. -/
def extract_markdown_links (text : Str) : List (Str × Str) :=
  extractLinksFuel text.length none text

/-- The shared splitting loop of `split_nodes_image` / `split_nodes_link`: for
each extracted pair, split the running text at the first occurrence of the
literal syntax (error when absent), emit the non-empty text before it and the
typed node, and continue on the remainder; a non-empty final remainder becomes
a trailing text node. -/
def extractLoop (mkLit : Str → Str → Str) (text_type : TextType) (errMsg : Str) :
    List (Str × Str) → Str → Except Str (List TextNode)
  | [], text => .ok (if text = [] then [] else [⟨text, .text, none⟩])
  | (label, url) :: rest, text =>
    match splitFirst (mkLit label url) text with
    | none => .error errMsg
    | some (pre, after) =>
      (extractLoop mkLit text_type errMsg rest after).map fun tail =>
        (if pre = [] then [] else [⟨pre, .text, none⟩]) ++ ⟨label, text_type, some url⟩ :: tail

/-- `split_nodes_image` from `inline_markdown.py`. -/
def split_nodes_image (old_nodes : List TextNode) : Except Str (List TextNode) :=
  match old_nodes with
  | [] => .ok []
  | n :: rest =>
    if n.text_type ≠ .text then (split_nodes_image rest).map (n :: ·)
    else
      let images := extract_markdown_images n.text
      if images = [] then (split_nodes_image rest).map (n :: ·)
      else
        match extractLoop imageLit .image imageErrMsg images n.text with
        | .error e => .error e
        | .ok ns => (split_nodes_image rest).map (ns ++ ·)

/-- `split_nodes_link` from `inline_markdown.py`. -/
def split_nodes_link (old_nodes : List TextNode) : Except Str (List TextNode) :=
  match old_nodes with
  | [] => .ok []
  | n :: rest =>
    if n.text_type ≠ .text then (split_nodes_link rest).map (n :: ·)
    else
      let links := extract_markdown_links n.text
      if links = [] then (split_nodes_link rest).map (n :: ·)
      else
        match extractLoop linkLit .link linkErrMsg links n.text with
        | .error e => .error e
        | .ok ns => (split_nodes_link rest).map (ns ++ ·)

/-- `text_to_textnodes` from `inline_markdown.py`: the five-pass pipeline
bold, italic, code, image, link over an initial single text node. -/
def text_to_textnodes (text : Str) : Except Str (List TextNode) :=
  match split_nodes_delimiter [⟨text, .text, none⟩] (str "**") .bold with
  | .error e => .error e
  | .ok n1 =>
    match split_nodes_delimiter n1 (str "_") .italic with
    | .error e => .error e
    | .ok n2 =>
      match split_nodes_delimiter n2 (str "`") .code with
      | .error e => .error e
      | .ok n3 =>
        match split_nodes_image n3 with
        | .error e => .error e
        | .ok n4 => split_nodes_link n4

/-- Modelled from the spec: `text_node_to_html_node` lives in `textnode.py`,
outside the provided sources. Per the spec's construction contract a span
becomes a leaf whose tag encodes the span kind (none for plain text) and whose
value is the span text; attributes such as urls are outside the contract. -/
def text_node_to_html_node (n : TextNode) : HTMLNode :=
  match n.text_type with
  | .text => .leaf none n.text
  | .bold => .leaf (some (str "b")) n.text
  | .italic => .leaf (some (str "i")) n.text
  | .code => .leaf (some (str "code")) n.text
  | .link => .leaf (some (str "a")) n.text
  | .image => .leaf (some (str "img")) (str "")

/-- `text_to_children` from `inline_markdown.py`. -/
def text_to_children (text : Str) : Except Str (List HTMLNode) :=
  (text_to_textnodes text).map (List.map text_node_to_html_node)

/-- `paragraph_to_html_node` from `inline_markdown.py`: join the lines with a
single space and wrap the tokenized text in a `p` node. -/
def paragraph_to_html_node (block : Str) : Except Str HTMLNode :=
  let lines := splitOnStr (str "\n") block
  (text_to_children (List.intercalate (str " ") lines)).map (HTMLNode.parent (str "p"))

/-- `heading_to_html_node` from `inline_markdown.py`: count leading hash marks,
reject a count outside 1..6, drop the marks plus one character, tokenize. -/
def heading_to_html_node (block : Str) : Except Str HTMLNode :=
  let level := (block.takeWhile (· == '#')).length
  if level < 1 ∨ level > 6 then
    .error (str "Invalid heading level: " ++ (Nat.repr level).data)
  else
    (text_to_children (block.drop (level + 1))).map
      (HTMLNode.parent (str "h" ++ (Nat.repr level).data))

/-- `code_to_html_node` from `inline_markdown.py`: re-check the fences, take
the interior verbatim (Python `block[3:-3]`), wrap a literal `code` leaf in a
`pre` node. -/
def code_to_html_node (block : Str) : Except Str HTMLNode :=
  if ¬((str "```").isPrefixOf block ∧ (str "```").isSuffixOf block) then
    .error (str "Invalid code block")
  else
    .ok (.parent (str "pre") [.leaf (some (str "code"))
      ((block.drop 3).take (block.length - 6))])

/-- The line loop of `quote_to_html_node`: each line must start with a quote
marker; Python `line.lstrip(">").lstrip()` drops the whole leading run of
markers and the whole following whitespace run. -/
def quoteLines : List Str → Except Str (List Str)
  | [] => .ok []
  | l :: ls =>
    if (str ">").isPrefixOf l then
      (quoteLines ls).map (((l.dropWhile (· == '>')).dropWhile isPySpace) :: ·)
    else .error (str "Invalid quote line")

/-- `quote_to_html_node` from `inline_markdown.py`. -/
def quote_to_html_node (block : Str) : Except Str HTMLNode :=
  match quoteLines (splitOnStr (str "\n") block) with
  | .error e => .error e
  | .ok new_lines =>
    (text_to_children (List.intercalate (str "\n") new_lines)).map
      (HTMLNode.parent (str "blockquote"))

/-- Error-propagating map over a list, the shape of the per-item loops of the
list builders and of `markdown_to_html_node`. -/
def mapExcept (f : α → Except Str β) : List α → Except Str (List β)
  | [] => .ok []
  | a :: rest =>
    match f a with
    | .error e => .error e
    | .ok b => (mapExcept f rest).map (b :: ·)

/-- `unordered_list_to_html_node` from `inline_markdown.py`: drop the fixed
two-character prefix of every line, tokenize each line into an `li` node. -/
def unordered_list_to_html_node (block : Str) : Except Str HTMLNode :=
  (mapExcept (fun item => (text_to_children (item.drop 2)).map (HTMLNode.parent (str "li")))
      (splitOnStr (str "\n") block)).map (HTMLNode.parent (str "ul"))

/-- `ordered_list_to_html_node` from `inline_markdown.py`: split each line on
the first `". "` and keep the remainder (Python `item.split(". ", 1)[1]`, an
index error when the separator is absent), tokenize each into an `li` node. -/
def ordered_list_to_html_node (block : Str) : Except Str HTMLNode :=
  (mapExcept (fun item =>
      match splitFirst (str ". ") item with
      | none => .error (str "list index out of range")
      | some (_, restText) => (text_to_children restText).map (HTMLNode.parent (str "li")))
    (splitOnStr (str "\n") block)).map (HTMLNode.parent (str "ol"))

/-- The per-block dispatch of `markdown_to_html_node`. -/
def blockToNode (block : Str) : Except Str HTMLNode :=
  match block_to_block_type block with
  | .paragraph => paragraph_to_html_node block
  | .heading => heading_to_html_node block
  | .code => code_to_html_node block
  | .quote => quote_to_html_node block
  | .unordered_list => unordered_list_to_html_node block
  | .ordered_list => ordered_list_to_html_node block

/-- `markdown_to_html_node` from `inline_markdown.py`: segment, convert each
block, collect the children under a root `div` node. -/
def markdown_to_html_node (markdown : Str) : Except Str HTMLNode :=
  (mapExcept blockToNode (markdown_to_blocks markdown)).map (HTMLNode.parent (str "div"))

/-- Witnesses that a list of (label, url) pairs can be located left to right in
a text: the text decomposes around the literal syntax of each pair in turn.
Used to prove the splitting loops of the image and link passes total. -/
def LocatedIn (mkLit : Str → Str → Str) : List (Str × Str) → Str → Prop
  | [], _ => True
  | (label, url) :: rest, t =>
    ∃ pre post, t = pre ++ mkLit label url ++ post ∧ LocatedIn mkLit rest post

/- Lemmas about `splitFirst` and `splitOnStr`. -/

theorem splitFirst_nil {sep : Str} (hsep : sep ≠ []) : splitFirst sep ([] : Str) = none := by
  simp only [splitFirst]
  rw [if_neg]
  intro hc
  rw [List.isPrefixOf_iff_prefix, List.prefix_nil] at hc
  exact hsep hc

theorem splitFirst_eq_append {sep : Str} :
    ∀ {s p r : Str}, splitFirst sep s = some (p, r) → s = p ++ sep ++ r := by
  intro s
  induction s with
  | nil =>
    intro p r h
    simp only [splitFirst] at h
    split at h
    · rename_i hpre
      rw [List.isPrefixOf_iff_prefix, List.prefix_nil] at hpre
      cases h
      simp [hpre]
    · cases h
  | cons c cs ih =>
    intro p r h
    simp only [splitFirst] at h
    split at h
    · rename_i hpre
      rw [List.isPrefixOf_iff_prefix] at hpre
      cases h
      simp only [List.nil_append]
      obtain ⟨t, ht⟩ := hpre
      rw [← ht, List.drop_left]
    · rename_i hpre
      rcases hmatch : splitFirst sep cs with _ | ⟨p', r'⟩ <;> rw [hmatch] at h
      · cases h
      · cases h
        have := ih hmatch
        simp [this]

theorem splitFirst_length {sep s p r : Str} (h : splitFirst sep s = some (p, r)) :
    s.length = p.length + sep.length + r.length := by
  have := splitFirst_eq_append h
  subst this
  simp only [List.length_append]
  try omega

theorem splitFirst_isSome_of_infix {sep : Str} :
    ∀ {s : Str}, sep <:+: s → (splitFirst sep s).isSome := by
  intro s
  induction s with
  | nil =>
    intro h
    have hs : sep = [] := List.eq_nil_of_infix_nil h
    subst hs
    simp [splitFirst, List.isPrefixOf]
  | cons c cs ih =>
    intro h
    simp only [splitFirst]
    split
    · simp
    · rename_i hpre
      have h' : sep <:+: cs := by
        rcases h with ⟨a, b, hab⟩
        cases a with
        | nil =>
          exfalso
          apply hpre
          rw [List.isPrefixOf_iff_prefix]
          exact ⟨b, by simpa using hab⟩
        | cons a0 a' =>
          refine ⟨a', b, ?_⟩
          have : a0 :: (a' ++ sep ++ b) = c :: cs := by simpa using hab
          exact (List.cons.injEq .. ▸ this).2
      have := ih h'
      rcases hm : splitFirst sep cs with _ | ⟨p, r⟩
      · rw [hm] at this
        simp at this
      · simp

theorem splitFirst_min {sep : Str} :
    ∀ {s p r : Str}, splitFirst sep s = some (p, r) →
      ∀ a b, s = a ++ sep ++ b → p.length ≤ a.length := by
  intro s
  induction s with
  | nil =>
    intro p r h a b heq
    simp only [splitFirst] at h
    split at h
    · cases h
      simp
    · cases h
  | cons c cs ih =>
    intro p r h a b heq
    simp only [splitFirst] at h
    split at h
    · cases h
      simp
    · rename_i hpre
      rcases hmatch : splitFirst sep cs with _ | ⟨p', r'⟩ <;> rw [hmatch] at h
      · cases h
      · cases h
        cases a with
        | nil =>
          exfalso
          apply hpre
          rw [List.isPrefixOf_iff_prefix]
          exact ⟨b, by simpa using heq.symm⟩
        | cons a0 a' =>
          simp only [List.cons_append, List.cons.injEq] at heq
          have := ih hmatch a' b heq.2
          simpa using Nat.succ_le_succ this

theorem splitFirst_none_of_not_infix {sep s : Str} (h : ¬ sep <:+: s) :
    splitFirst sep s = none := by
  rcases hm : splitFirst sep s with _ | ⟨p, r⟩
  · rfl
  · exact absurd ⟨p, r, (splitFirst_eq_append hm).symm⟩ h

theorem splitOnFuel_congr {sep : Str} (hsep : sep ≠ []) :
    ∀ (f : Nat) {s : Str} (g : Nat), s.length ≤ f → s.length ≤ g →
      splitOnFuel sep f s = splitOnFuel sep g s := by
  intro f
  induction f with
  | zero =>
    intro s g hf _
    have hs : s = [] := List.length_eq_zero.mp (Nat.le_zero.mp hf)
    subst hs
    cases g with
    | zero => rfl
    | succ g' => simp [splitOnFuel, splitFirst_nil hsep]
  | succ f' ih =>
    intro s g hf hg
    cases g with
    | zero =>
      have hs : s = [] := List.length_eq_zero.mp (Nat.le_zero.mp hg)
      subst hs
      simp [splitOnFuel, splitFirst_nil hsep]
    | succ g' =>
      simp only [splitOnFuel]
      rcases hm : splitFirst sep s with _ | ⟨p, r⟩
      · rfl
      · have hlen := splitFirst_length hm
        have hsl : 0 < sep.length := List.length_pos.mpr hsep
        have hr : r.length ≤ f' := by omega
        have hr' : r.length ≤ g' := by omega
        show p :: splitOnFuel sep f' r = p :: splitOnFuel sep g' r
        rw [ih g' hr hr']

theorem splitOnStr_eq {sep : Str} (hsep : sep ≠ []) (s : Str) :
    splitOnStr sep s = match splitFirst sep s with
      | none => [s]
      | some (p, r) => p :: splitOnStr sep r := by
  rcases hm : splitFirst sep s with _ | ⟨p, r⟩
  · cases hs : s with
    | nil => simp [splitOnStr, splitOnFuel, hm]
    | cons c cs =>
      subst hs
      simp only [splitOnStr, List.length_cons, splitOnFuel, hm]
  · have hlen := splitFirst_length hm
    have hsl : 0 < sep.length := List.length_pos.mpr hsep
    cases hs : s with
    | nil =>
      subst hs
      simp at hlen
      omega
    | cons c cs =>
      subst hs
      simp only [splitOnStr, List.length_cons, splitOnFuel, hm]
      congr 1
      exact splitOnFuel_congr hsep cs.length r.length (by simp at hlen ⊢; omega) (le_refl _)

theorem splitOnFuel_ne_nil {sep : Str} (f : Nat) (s : Str) : splitOnFuel sep f s ≠ [] := by
  cases f with
  | zero => simp [splitOnFuel]
  | succ f' =>
    simp only [splitOnFuel]
    rcases splitFirst sep s with _ | ⟨p, r⟩ <;> simp

theorem splitOnStr_ne_nil {sep s : Str} : splitOnStr sep s ≠ [] :=
  splitOnFuel_ne_nil s.length s

theorem splitOnStr_head_pref {sep s l : Str} (hsep : sep ≠ [])
    (h : (splitOnStr sep s).head? = some l) : l <+: s := by
  rw [splitOnStr_eq hsep] at h
  rcases hm : splitFirst sep s with _ | ⟨p, r⟩ <;> rw [hm] at h
  · cases h
    exact List.prefix_refl _
  · cases h
    exact ⟨sep ++ r, by rw [← List.append_assoc, ← splitFirst_eq_append hm]⟩

theorem splitOnFuel_length_count {sep : Str} (hsep : sep ≠ []) :
    ∀ (f : Nat) {s : Str} (g : Nat), s.length ≤ f → s.length ≤ g →
      (splitOnFuel sep f s).length = countOccsFuel sep g s + 1 := by
  intro f
  induction f with
  | zero =>
    intro s g hf _
    have hs : s = [] := List.length_eq_zero.mp (Nat.le_zero.mp hf)
    subst hs
    cases g with
    | zero => simp [splitOnFuel, countOccsFuel]
    | succ g' => simp [splitOnFuel, countOccsFuel, splitFirst_nil hsep]
  | succ f' ih =>
    intro s g hf hg
    cases g with
    | zero =>
      have hs : s = [] := List.length_eq_zero.mp (Nat.le_zero.mp hg)
      subst hs
      simp [splitOnFuel, countOccsFuel, splitFirst_nil hsep]
    | succ g' =>
      simp only [splitOnFuel, countOccsFuel]
      rcases hm : splitFirst sep s with _ | ⟨p, r⟩
      · simp
      · have hlen := splitFirst_length hm
        have hsl : 0 < sep.length := List.length_pos.mpr hsep
        have hr : r.length ≤ f' := by omega
        have hr' : r.length ≤ g' := by omega
        show (p :: splitOnFuel sep f' r).length = 1 + countOccsFuel sep g' r + 1
        rw [List.length_cons, ih g' hr hr']
        omega

theorem splitOnStr_length_count {sep : Str} (hsep : sep ≠ []) (s : Str) :
    (splitOnStr sep s).length = countOccs sep s + 1 :=
  splitOnFuel_length_count hsep s.length s.length (le_refl _) (le_refl _)

theorem splitOnStr_of_not_infix {sep s : Str} (hsep : sep ≠ []) (h : ¬ sep <:+: s) :
    splitOnStr sep s = [s] := by
  rw [splitOnStr_eq hsep, splitFirst_none_of_not_infix h]

/- Lemmas about `stripStr`. -/

theorem dropWhile_eq_self_of_pref {p : Char → Bool} :
    ∀ {l k : Str}, l.dropWhile p = l → k <+: l → k.dropWhile p = k := by
  intro l k hl hk
  cases k with
  | nil => simp
  | cons c u =>
    obtain ⟨t, ht⟩ := hk
    rw [List.dropWhile_cons, if_neg]
    intro hc
    rw [← ht] at hl
    simp only [List.cons_append, List.dropWhile_cons, hc, if_true] at hl
    have hle : ((u ++ t).dropWhile p).length ≤ (u ++ t).length :=
      (List.dropWhile_suffix p).sublist.length_le
    rw [hl] at hle
    simp at hle

theorem stripStr_idem (s : Str) : stripStr (stripStr s) = stripStr s := by
  show List.rdropWhile isPySpace
      ((List.rdropWhile isPySpace (s.dropWhile isPySpace)).dropWhile isPySpace)
      = List.rdropWhile isPySpace (s.dropWhile isPySpace)
  rw [dropWhile_eq_self_of_pref (List.dropWhile_idempotent isPySpace s)
    (List.rdropWhile_prefix ..)]
  exact List.rdropWhile_idempotent ..

/- Lemmas about `markdown_to_blocks`. -/

theorem filterBlocks_eq (l : List Str) :
    filterBlocks l = (l.filter (· ≠ [])).map stripStr := by
  induction l with
  | nil => rfl
  | cons b bs ih =>
    by_cases hb : b = []
    · simp [filterBlocks, hb, ih]
    · simp [filterBlocks, hb, ih]

theorem mem_markdown_to_blocks_stripped {md b : Str} (h : b ∈ markdown_to_blocks md) :
    stripStr b = b := by
  rw [markdown_to_blocks, filterBlocks_eq] at h
  rcases List.mem_map.mp h with ⟨b0, _, rfl⟩
  exact stripStr_idem b0

/- Lemmas about `split_nodes_delimiter`. -/

theorem split_nodes_delimiter_not_text {n : TextNode} {d : Str} {tt : TextType}
    (h : n.text_type ≠ .text) : split_nodes_delimiter [n] d tt = .ok [n] := by
  simp [split_nodes_delimiter, h, Except.map]

theorem split_nodes_delimiter_singleton_text (s d : Str) (tt : TextType)
    (hodd : (splitOnStr d s).length % 2 ≠ 0) :
    split_nodes_delimiter [⟨s, .text, none⟩] d tt = .ok (delimSections (splitOnStr d s) tt) := by
  simp [split_nodes_delimiter, hodd, Except.map]

theorem split_nodes_delimiter_singleton_err {s d : Str} {tt : TextType}
    (heven : (splitOnStr d s).length % 2 = 0) :
    split_nodes_delimiter [⟨s, .text, none⟩] d tt = .error delimErrMsg := by
  simp [split_nodes_delimiter, heven]

theorem delimSections_singleton {s : Str} {tt : TextType} (hs : s ≠ []) :
    delimSections [s] tt = [⟨s, .text, none⟩] := by
  simp [delimSections, List.enum, List.enumFrom, hs]

theorem split_nodes_delimiter_no_delim (s d : Str) (tt : TextType) (hd : d ≠ [])
    (hni : ¬ d <:+: s) (hs : s ≠ []) :
    split_nodes_delimiter [⟨s, .text, none⟩] d tt = .ok [⟨s, .text, none⟩] := by
  have h1 : splitOnStr d s = [s] := splitOnStr_of_not_infix hd hni
  have hodd : (splitOnStr d s).length % 2 ≠ 0 := by simp [h1]
  have h2 := split_nodes_delimiter_singleton_text s d tt hodd
  rw [h1, delimSections_singleton hs] at h2
  exact h2

theorem split_nodes_image_singleton_empty {n : TextNode}
    (h : extract_markdown_images n.text = []) : split_nodes_image [n] = .ok [n] := by
  by_cases ht : n.text_type = .text
  · simp [split_nodes_image, ht, h, Except.map]
  · simp [split_nodes_image, ht, Except.map]

theorem split_nodes_link_singleton_empty {n : TextNode}
    (h : extract_markdown_links n.text = []) : split_nodes_link [n] = .ok [n] := by
  by_cases ht : n.text_type = .text
  · simp [split_nodes_link, ht, h, Except.map]
  · simp [split_nodes_link, ht, Except.map]

/- Claim theorems. -/

/-- C1 (counterexample): the claim that whitespace-only fragments are discarded
and no returned block is empty fails: the one-space document yields the single
empty block, because the source tests a fragment against the empty string
before stripping it. -/
theorem C1_counterexample :
    markdown_to_blocks (str " ") = [[]]
    ∧ ¬ (∀ b ∈ markdown_to_blocks (str " "), b ≠ []) := by
  refine ⟨by decide, fun h => ?_⟩
  exact h [] (by decide) rfl

/-- C1 (amended): every block returned by `markdown_to_blocks` is a stripped
fragment in document order, fragments equal to the empty string are discarded,
and every returned block has no leading or trailing whitespace (stripping it
again changes nothing); whitespace-only fragments however survive as empty
blocks. -/
theorem C1_theorem (md : Str) :
    markdown_to_blocks md = ((splitOnStr (str "\n\n") md).filter (· ≠ [])).map stripStr
    ∧ ∀ b ∈ markdown_to_blocks md, stripStr b = b :=
  ⟨filterBlocks_eq _, fun _ hb => mem_markdown_to_blocks_stripped hb⟩

/-- C1 witness: the amended theorem applied to a concrete document. -/
theorem C1_witness : stripStr (str "a") = str "a" :=
  (C1_theorem (str " a ")).2 (str "a") (by decide)

/-- C2: on a text span whose string contains the delimiter an even number of
times, the delimiter pass succeeds and returns the enumerated alternation of
the split sections (even index text, odd index marked) with empty sections
dropped, so no returned span is empty; non-text spans pass through unchanged. -/
theorem C2_theorem (s d : Str) (tt : TextType) (hd : d ≠ [])
    (heven : countOccs d s % 2 = 0) :
    split_nodes_delimiter [⟨s, .text, none⟩] d tt = .ok (delimSections (splitOnStr d s) tt)
    ∧ (∀ m ∈ delimSections (splitOnStr d s) tt, m.text ≠ [])
    ∧ (∀ n : TextNode, n.text_type ≠ .text → split_nodes_delimiter [n] d tt = .ok [n]) := by
  refine ⟨?_, ?_, fun n h => split_nodes_delimiter_not_text h⟩
  · apply split_nodes_delimiter_singleton_text
    rw [splitOnStr_length_count hd]
    omega
  · intro m hm
    rw [delimSections] at hm
    rcases List.mem_filterMap.mp hm with ⟨⟨i, seg⟩, _, heq⟩
    by_cases hseg : seg = []
    · simp [hseg] at heq
    · simp only [hseg, if_false] at heq
      cases heq
      exact hseg

/-- C2 witness: the theorem applied to a concrete bold span. -/
theorem C2_witness :
    split_nodes_delimiter [⟨str "a**b**c", .text, none⟩] (str "**") .bold =
      .ok [⟨str "a", .text, none⟩, ⟨str "b", .bold, none⟩, ⟨str "c", .text, none⟩] :=
  ((C2_theorem (str "a**b**c") (str "**") .bold (by decide) (by decide)).1).trans (by decide)

/-- C3 (counterexample): the claim fails on the empty input string, which
contains no inline marker yet tokenizes to the empty span list rather than to
one empty text span, because every pass drops empty segments. -/
theorem C3_counterexample :
    text_to_textnodes (str "") = .ok ([] : List TextNode)
    ∧ text_to_textnodes (str "") ≠ .ok [⟨str "", .text, none⟩] := by
  refine ⟨rfl, ?_⟩
  decide

/-- C3 (amended): every non-empty string containing none of the inline markers
(no bold, italic or code delimiter as a substring, no image-syntax match and no
link-syntax match) tokenizes to exactly one text span equal to the input. -/
theorem C3_theorem (s : Str) (hs : s ≠ [])
    (hb : ¬ (str "**") <:+: s) (hi : ¬ (str "_") <:+: s) (hc : ¬ (str "`") <:+: s)
    (himg : extract_markdown_images s = []) (hlink : extract_markdown_links s = []) :
    text_to_textnodes s = .ok [⟨s, .text, none⟩] := by
  have h1 := split_nodes_delimiter_no_delim s (str "**") .bold (by decide) hb hs
  have h2 := split_nodes_delimiter_no_delim s (str "_") .italic (by decide) hi hs
  have h3 := split_nodes_delimiter_no_delim s (str "`") .code (by decide) hc hs
  have h4 : split_nodes_image [⟨s, .text, none⟩] = .ok [⟨s, .text, none⟩] :=
    split_nodes_image_singleton_empty himg
  have h5 : split_nodes_link [⟨s, .text, none⟩] = .ok [⟨s, .text, none⟩] :=
    split_nodes_link_singleton_empty hlink
  simp only [text_to_textnodes, h1, h2, h3, h4, h5]

/-- C3 witness: the amended theorem applied to a concrete marker-free string. -/
theorem C3_witness : text_to_textnodes (str "hello") = .ok [⟨str "hello", .text, none⟩] :=
  C3_theorem (str "hello") (by decide) (by decide) (by decide) (by decide)
    (by decide) (by decide)

/-- C4 (counterexample): on the unterminated input the pass does raise a hard
error, but the error value is the fixed message of the source, which does not
name (or even contain) the unclosed delimiter. -/
theorem C4_counterexample :
    text_to_textnodes (str "**bold") = .error delimErrMsg
    ∧ ¬ (str "**" <:+: delimErrMsg) := ⟨rfl, by decide⟩

/-- C4 (amended): a text span containing a delimiter an odd number of times
makes the delimiter pass fail with the fixed unclosed-section error message
(which does not name the delimiter); in particular tokenizing the single
unmatched bold delimiter fails with that message. -/
theorem C4_theorem :
    (∀ (s d : Str) (tt : TextType), d ≠ [] → countOccs d s % 2 = 1 →
      split_nodes_delimiter [⟨s, .text, none⟩] d tt = .error delimErrMsg)
    ∧ text_to_textnodes (str "**bold") = .error delimErrMsg := by
  refine ⟨fun s d tt hd hodd => ?_, rfl⟩
  apply split_nodes_delimiter_singleton_err
  rw [splitOnStr_length_count hd]
  omega

/-- C4 witness: the amended theorem applied to the unmatched bold delimiter. -/
theorem C4_witness :
    split_nodes_delimiter [⟨str "**bold", .text, none⟩] (str "**") .bold = .error delimErrMsg :=
  C4_theorem.1 (str "**bold") (str "**") .bold (by decide) (by decide)

/-- Characterization of the ordered-list branch of the classifier in terms of
the boolean rule predicates, following the if chain of the source. -/
theorem block_to_block_type_eq_ol_iff (block : Str) :
    block_to_block_type block = .ordered_list ↔
      (isHeading block = false ∧ isCodeBlock block = false
        ∧ isQuoteLines (splitOnStr (str "\n") block) = false
        ∧ isULLines (splitOnStr (str "\n") block) = false
        ∧ isOLLines (splitOnStr (str "\n") block) = true) := by
  simp only [block_to_block_type]
  split_ifs with h1 h2 h3 h4 h5 <;> simp_all

/-- The ordered-list loop agrees with the indexed description: line `i` must
start with the marker numbered `n + i`. -/
theorem olCheck_iff :
    ∀ (ls : List Str) (n : Nat), olCheck n ls = true ↔
      ∀ i (h : i < ls.length), (olMarker (n + i)).isPrefixOf (ls.get ⟨i, h⟩) := by
  intro ls
  induction ls with
  | nil =>
    intro n
    simp [olCheck]
  | cons l ls ih =>
    intro n
    simp only [olCheck, Bool.and_eq_true]
    constructor
    · rintro ⟨hhead, htail⟩ i h
      cases i with
      | zero => simpa using hhead
      | succ j =>
        have := (ih (n + 1)).mp htail j (by simpa using Nat.lt_of_succ_lt_succ h)
        rw [show n + (j + 1) = (n + 1) + j by omega]
        simpa using this
    · intro h
      refine ⟨?_, (ih (n + 1)).mpr ?_⟩
      · simpa using h 0 (by simp)
      · intro j hj
        have := h (j + 1) (by simpa using Nat.succ_lt_succ hj)
        rw [show (n + 1) + j = n + (j + 1) by omega]
        simpa using this

/-- C5: a block whose every line starts with the quote marker always
classifies as Quote (the earlier heading and code rules cannot fire, since the
block then starts with the marker), and Paragraph is returned whenever no
earlier rule matches; classification is a total function by construction. -/
theorem C5_theorem (block : Str) :
    ((∀ l ∈ splitOnStr (str "\n") block, (str ">").isPrefixOf l) →
      block_to_block_type block = .quote)
    ∧ (isHeading block = false → isCodeBlock block = false →
       isQuoteLines (splitOnStr (str "\n") block) = false →
       isULLines (splitOnStr (str "\n") block) = false →
       isOLLines (splitOnStr (str "\n") block) = false →
       block_to_block_type block = .paragraph) := by
  constructor
  · intro hq
    rcases hl : splitOnStr (str "\n") block with _ | ⟨l0, rest⟩
    · exact absurd hl splitOnStr_ne_nil
    · have hl0 : l0 <+: block :=
        splitOnStr_head_pref (show str "\n" ≠ [] by decide) (by rw [hl]; rfl)
      have hq0 : (str ">").isPrefixOf l0 := hq l0 (by rw [hl]; exact List.mem_cons_self ..)
      rw [List.isPrefixOf_iff_prefix] at hq0
      obtain ⟨t, ht⟩ := hq0.trans hl0
      have hblock : block = '>' :: t := by rw [← ht]; rfl
      subst hblock
      have hH : isHeading ('>' :: t) = false := by simp [isHeading]
      have hC : isCodeBlock ('>' :: t) = false := by simp [isCodeBlock, List.isPrefixOf]
      have hQ : isQuoteLines (splitOnStr (str "\n") ('>' :: t)) = true :=
        List.all_eq_true.mpr hq
      simp [block_to_block_type, hH, hC, hQ]
  · intro h1 h2 h3 h4 h5
    simp [block_to_block_type, h1, h2, h3, h4, h5]

/-- C5 witness: the theorem applied to a concrete quote block and to a
concrete fallback paragraph. -/
theorem C5_witness :
    block_to_block_type (str ">a\n>b") = .quote
    ∧ block_to_block_type (str "plain text") = .paragraph :=
  ⟨(C5_theorem (str ">a\n>b")).1 (by decide),
   (C5_theorem (str "plain text")).2 (by decide) (by decide) (by decide) (by decide)
     (by decide)⟩

/-- C6: a block classifies as OrderedList exactly when the earlier rules all
fail and line `i` (0-indexed) starts with the literal marker numbered `i + 1`
for every line, so numbering starts at 1 and increments by exactly 1; in
particular the single-line block starting at 2 falls through to Paragraph. -/
theorem C6_theorem (block : Str) :
    (block_to_block_type block = .ordered_list ↔
      (isHeading block = false ∧ isCodeBlock block = false
        ∧ isQuoteLines (splitOnStr (str "\n") block) = false
        ∧ isULLines (splitOnStr (str "\n") block) = false
        ∧ ∀ i (h : i < (splitOnStr (str "\n") block).length),
            (olMarker (i + 1)).isPrefixOf ((splitOnStr (str "\n") block).get ⟨i, h⟩)))
    ∧ block_to_block_type (str "2. item") = .paragraph := by
  refine ⟨?_, by decide⟩
  have hlen : 0 < (splitOnStr (str "\n") block).length :=
    List.length_pos.mpr splitOnStr_ne_nil
  rw [block_to_block_type_eq_ol_iff]
  constructor
  · rintro ⟨a, b, c, d, e⟩
    refine ⟨a, b, c, d, ?_⟩
    have hchk : olCheck 1 (splitOnStr (str "\n") block) = true := by
      rw [isOLLines, Bool.and_eq_true] at e
      exact e.1
    intro i h
    have := (olCheck_iff _ 1).mp hchk i h
    rwa [Nat.add_comm] at this
  · rintro ⟨a, b, c, d, e⟩
    refine ⟨a, b, c, d, ?_⟩
    rw [isOLLines, Bool.and_eq_true]
    refine ⟨(olCheck_iff _ 1).mpr (fun i h => ?_), by simpa using hlen⟩
    rw [Nat.add_comm]
    exact e i h

/-- C6 witness: the characterization applied to a concrete two-line ordered
list. -/
theorem C6_witness : block_to_block_type (str "1. a\n2. b") = .ordered_list :=
  (C6_theorem (str "1. a\n2. b")).1.mpr (by decide)

/-- The line loop of the quote builder succeeds on lines that all start with
the quote marker and applies the source's stripping to each line. -/
theorem quoteLines_ok :
    ∀ {ls : List Str}, (∀ l ∈ ls, (str ">").isPrefixOf l) →
      quoteLines ls = .ok (ls.map fun l => (l.dropWhile (· == '>')).dropWhile isPySpace) := by
  intro ls
  induction ls with
  | nil => intro _; rfl
  | cons l ls ih =>
    intro h
    have hl := h l (List.mem_cons_self ..)
    have htail := ih (fun x hx => h x (List.mem_cons_of_mem _ hx))
    simp only [quoteLines, hl, if_true, htail, Except.map, List.map]

/-- C7 (amended): on a block whose every line starts with the quote marker,
the quote builder strips from every line the whole leading run of markers and
the whole following whitespace run (not exactly one of each), rejoins the
stripped lines with newline, and wraps the inline-tokenized rejoined text in a
blockquote node. -/
theorem C7_theorem (block : Str)
    (h : ∀ l ∈ splitOnStr (str "\n") block, (str ">").isPrefixOf l) :
    quote_to_html_node block =
      (text_to_children (List.intercalate (str "\n")
        ((splitOnStr (str "\n") block).map
          fun l => (l.dropWhile (· == '>')).dropWhile isPySpace))).map
        (HTMLNode.parent (str "blockquote")) := by
  simp only [quote_to_html_node, quoteLines_ok h]

/-- C7 witness: the amended theorem applied to a concrete quote block. -/
theorem C7_witness :
    quote_to_html_node (str "> a") =
      .ok (.parent (str "blockquote") [.leaf none (str "a")]) :=
  (C7_theorem (str "> a") (by decide)).trans (by rfl)

/-- C7 (counterexample): the claim that exactly one leading marker is stripped
fails on a doubled marker: the source strips the whole run, so the line with
two markers loses both rather than keeping one. -/
theorem C7_counterexample :
    quote_to_html_node (str ">>x") = .ok (.parent (str "blockquote") [.leaf none (str "x")])
    ∧ quote_to_html_node (str ">>x") ≠
        .ok (.parent (str "blockquote") [.leaf none (str ">x")]) := by
  refine ⟨rfl, fun h => ?_⟩
  have h2 : (Except.ok (HTMLNode.parent (str "blockquote") [.leaf none (str "x")]) :
      Except Str HTMLNode) = .ok (.parent (str "blockquote") [.leaf none (str ">x")]) := by
    rw [← h]
    rfl
  simp [str] at h2

/-- C8: the link pass never misreads an image and the image pass claims
image syntax first: the leading-bang occurrence tokenizes to an image span
followed by the trailing text, the bare occurrence tokenizes to a single link
span, and the link extractor finds nothing in the image-bearing string. -/
theorem C8_theorem :
    text_to_textnodes (str "![alt](http://x) more") =
      .ok [⟨str "alt", .image, some (str "http://x")⟩, ⟨str " more", .text, none⟩]
    ∧ text_to_textnodes (str "[alt](http://x)") =
      .ok [⟨str "alt", .link, some (str "http://x")⟩]
    ∧ extract_markdown_links (str "![alt](http://x) more") = [] :=
  ⟨rfl, rfl, rfl⟩

/-- C10: converting the empty document succeeds and returns the root div node
with an empty list of children. -/
theorem C10_theorem : markdown_to_html_node (str "") = .ok (.parent (str "div") []) := rfl

/- Structure lemmas for the image/link scanners, used to prove the splitting
loops of the image and link passes total (claim C9). -/

theorem expectTwo_eq {a b : Char} :
    ∀ {s rest : Str}, expectTwo a b s = some rest → s = a :: b :: rest := by
  intro s rest h
  cases s with
  | nil => simp [expectTwo] at h
  | cons c1 s1 =>
    cases s1 with
    | nil => simp [expectTwo] at h
    | cons c2 r =>
      simp only [expectTwo] at h
      split at h
      · rename_i hc
        cases h
        simp [hc.1, hc.2]
      · cases h

theorem expectOne_eq {a : Char} :
    ∀ {s rest : Str}, expectOne a s = some rest → s = a :: rest := by
  intro s rest h
  cases s with
  | nil => simp [expectOne] at h
  | cons c1 r =>
    simp only [expectOne] at h
    split at h
    · rename_i hc
      cases h
      simp [hc]
    · cases h

theorem matchBodyAt_eq {r label url rest : Str}
    (h : matchBodyAt r = some (label, url, rest)) :
    r = label ++ str "](" ++ url ++ str ")" ++ rest := by
  simp only [matchBodyAt] at h
  rcases h2 : expectTwo ']' '(' (r.dropWhile notBracket) with _ | r2 <;>
    rw [h2] at h <;> simp only [Option.none_bind, Option.some_bind] at h
  · cases h
  · rcases h3 : expectOne ')' (r2.dropWhile notParen) with _ | rest2 <;>
      rw [h3] at h <;> simp only [Option.none_bind, Option.some_bind] at h
    · cases h
    · cases h
      have e2 := expectTwo_eq h2
      have e3 := expectOne_eq h3
      conv_lhs => rw [← List.takeWhile_append_dropWhile notBracket r, e2]
      conv_lhs => rw [show r2 = r2.takeWhile notParen ++ r2.dropWhile notParen from
        (List.takeWhile_append_dropWhile ..).symm, e3]
      simp [str]

theorem matchImageAt_eq : ∀ {s alt url rest : Str},
    matchImageAt s = some (alt, url, rest) → s = imageLit alt url ++ rest := by
  intro s alt url rest h
  cases s with
  | nil => simp [matchImageAt] at h
  | cons c1 s1 =>
    cases s1 with
    | nil => simp [matchImageAt] at h
    | cons c2 r =>
      simp only [matchImageAt] at h
      split at h
      · rename_i hc
        obtain ⟨rfl, rfl⟩ := hc
        rw [matchBodyAt_eq h]
        simp [imageLit, str]
      · cases h

theorem matchLinkAt_eq : ∀ {s label url rest : Str},
    matchLinkAt s = some (label, url, rest) → s = linkLit label url ++ rest := by
  intro s label url rest h
  cases s with
  | nil => simp [matchLinkAt] at h
  | cons c1 r =>
    simp only [matchLinkAt] at h
    split at h
    · rename_i hc
      subst hc
      rw [matchBodyAt_eq h]
      simp [linkLit, str]
    · cases h

theorem findImage_eq : ∀ {s pre alt url rest : Str},
    findImage s = some (pre, alt, url, rest) → s = pre ++ imageLit alt url ++ rest := by
  intro s
  induction s with
  | nil =>
    intro pre alt url rest h
    simp [findImage] at h
  | cons c cs ih =>
    intro pre alt url rest h
    simp only [findImage] at h
    rcases hm : matchImageAt (c :: cs) with _ | ⟨a, u, r⟩ <;> rw [hm] at h
    · rcases hf : findImage cs with _ | ⟨p', a', u', r'⟩ <;> rw [hf] at h
      · cases h
      · cases h
        have := ih hf
        simp [this]
    · cases h
      simpa using matchImageAt_eq hm

theorem findLink_eq : ∀ {s : Str} {prev : Option Char} {pre label url rest : Str},
    findLink prev s = some (pre, label, url, rest) → s = pre ++ linkLit label url ++ rest := by
  intro s
  induction s with
  | nil =>
    intro prev pre label url rest h
    simp [findLink] at h
  | cons c cs ih =>
    intro prev pre label url rest h
    simp only [findLink] at h
    rcases hm : (if prev = some '!' then none else matchLinkAt (c :: cs)) with _ | ⟨a, u, r⟩ <;>
      rw [hm] at h
    · rcases hf : findLink (some c) cs with _ | ⟨p', a', u', r'⟩ <;> rw [hf] at h
      · cases h
      · cases h
        have := ih hf
        simp [this]
    · cases h
      have hm2 : matchLinkAt (c :: cs) = some (label, url, rest) := by
        by_cases hp : prev = some '!'
        · rw [if_pos hp] at hm
          cases hm
        · rwa [if_neg hp] at hm
      simpa using matchLinkAt_eq hm2

theorem findImage_rest_length {s pre alt url rest : Str}
    (h : findImage s = some (pre, alt, url, rest)) : rest.length < s.length := by
  have heq := findImage_eq h
  subst heq
  simp [imageLit, str]
  omega

theorem findLink_rest_length {s : Str} {prev : Option Char} {pre label url rest : Str}
    (h : findLink prev s = some (pre, label, url, rest)) : rest.length < s.length := by
  have heq := findLink_eq h
  subst heq
  simp [linkLit, str]
  omega

theorem extractImagesFuel_located :
    ∀ (f : Nat) (s : Str), s.length ≤ f → LocatedIn imageLit (extractImagesFuel f s) s := by
  intro f
  induction f with
  | zero =>
    intro s _
    simp only [extractImagesFuel]
    trivial
  | succ f' ih =>
    intro s hs
    simp only [extractImagesFuel]
    rcases hm : findImage s with _ | ⟨pre, alt, url, rest⟩
    · trivial
    · have heq := findImage_eq hm
      have hlt := findImage_rest_length hm
      exact ⟨pre, rest, heq, ih rest (by omega)⟩

theorem extractLinksFuel_located :
    ∀ (f : Nat) (prev : Option Char) (s : Str), s.length ≤ f →
      LocatedIn linkLit (extractLinksFuel f prev s) s := by
  intro f
  induction f with
  | zero =>
    intro prev s _
    simp only [extractLinksFuel]
    trivial
  | succ f' ih =>
    intro prev s hs
    simp only [extractLinksFuel]
    rcases hm : findLink prev s with _ | ⟨pre, label, url, rest⟩
    · trivial
    · have heq := findLink_eq hm
      have hlt := findLink_rest_length hm
      exact ⟨pre, rest, heq, ih (some ')') rest (by omega)⟩

theorem LocatedIn_mono {mk : Str → Str → Str} :
    ∀ {xs : List (Str × Str)} {b : Str} (mid : Str),
      LocatedIn mk xs b → LocatedIn mk xs (mid ++ b) := by
  intro xs
  cases xs with
  | nil =>
    intro b mid _
    trivial
  | cons hd tl =>
    rcases hd with ⟨label, url⟩
    intro b mid h
    obtain ⟨pre, post, heq, hrest⟩ := h
    exact ⟨mid ++ pre, post, by rw [heq]; simp, hrest⟩

theorem splitFirst_tail_suffix {sep s p r a b : Str}
    (hm : splitFirst sep s = some (p, r)) (hdec : s = a ++ sep ++ b) :
    ∃ mid, r = mid ++ b := by
  have heq := splitFirst_eq_append hm
  have hmin := splitFirst_min hm a b hdec
  have h1 : r = s.drop (p.length + sep.length) := by
    rw [heq, ← List.length_append, List.drop_left]
  have h2 : b = s.drop (a.length + sep.length) := by
    rw [hdec, ← List.length_append, List.drop_left]
  have hb : b = r.drop (a.length - p.length) := by
    rw [h1, List.drop_drop, h2]
    congr 1
    omega
  refine ⟨r.take (a.length - p.length), ?_⟩
  rw [hb, List.take_append_drop]

theorem extractLoop_ok {mk : Str → Str → Str} (tt : TextType) (err : Str) :
    ∀ (xs : List (Str × Str)) (t : Str), LocatedIn mk xs t →
      ∃ out, extractLoop mk tt err xs t = .ok out := by
  intro xs
  induction xs with
  | nil =>
    intro t _
    exact ⟨_, rfl⟩
  | cons hd tl ih =>
    rcases hd with ⟨label, url⟩
    intro t hloc
    obtain ⟨pre, post, heq, hrest⟩ := hloc
    have hsome : (splitFirst (mk label url) t).isSome :=
      splitFirst_isSome_of_infix ⟨pre, post, heq.symm⟩
    rcases hm : splitFirst (mk label url) t with _ | ⟨p, r⟩
    · rw [hm] at hsome
      simp at hsome
    · obtain ⟨mid, hmid⟩ := splitFirst_tail_suffix hm heq
      have hloc' : LocatedIn mk tl r := by
        rw [hmid]
        exact LocatedIn_mono mid hrest
      obtain ⟨out, hout⟩ := ih r hloc'
      refine ⟨(if p = [] then [] else [⟨p, .text, none⟩]) ++ ⟨label, tt, some url⟩ :: out, ?_⟩
      simp only [extractLoop, hm, hout, Except.map]

theorem split_nodes_image_ok (old_nodes : List TextNode) :
    ∃ out, split_nodes_image old_nodes = .ok out := by
  induction old_nodes with
  | nil => exact ⟨_, rfl⟩
  | cons n rest ih =>
    obtain ⟨out, hout⟩ := ih
    by_cases ht : n.text_type = .text
    · by_cases himg : extract_markdown_images n.text = []
      · exact ⟨n :: out, by simp [split_nodes_image, ht, himg, hout, Except.map]⟩
      · obtain ⟨out2, hout2⟩ := extractLoop_ok .image imageErrMsg
          (extract_markdown_images n.text) n.text
          (extractImagesFuel_located n.text.length n.text (le_refl _))
        exact ⟨out2 ++ out, by simp [split_nodes_image, ht, himg, hout, hout2, Except.map]⟩
    · exact ⟨n :: out, by simp [split_nodes_image, ht, hout, Except.map]⟩

theorem split_nodes_link_ok (old_nodes : List TextNode) :
    ∃ out, split_nodes_link old_nodes = .ok out := by
  induction old_nodes with
  | nil => exact ⟨_, rfl⟩
  | cons n rest ih =>
    obtain ⟨out, hout⟩ := ih
    by_cases ht : n.text_type = .text
    · by_cases hlnk : extract_markdown_links n.text = []
      · exact ⟨n :: out, by simp [split_nodes_link, ht, hlnk, hout, Except.map]⟩
      · obtain ⟨out2, hout2⟩ := extractLoop_ok .link linkErrMsg
          (extract_markdown_links n.text) n.text
          (extractLinksFuel_located n.text.length none n.text (le_refl _))
        exact ⟨out2 ++ out, by simp [split_nodes_link, ht, hlnk, hout, hout2, Except.map]⟩
    · exact ⟨n :: out, by simp [split_nodes_link, ht, hout, Except.map]⟩

theorem split_nodes_delimiter_error :
    ∀ {old_nodes : List TextNode} {d : Str} {tt : TextType} {e : Str},
      split_nodes_delimiter old_nodes d tt = .error e → e = delimErrMsg := by
  intro old
  induction old with
  | nil =>
    intro d tt e h
    simp [split_nodes_delimiter] at h
  | cons n rest ih =>
    intro d tt e h
    simp only [split_nodes_delimiter] at h
    split at h
    · rcases hr : split_nodes_delimiter rest d tt with e' | ns <;> rw [hr] at h
      · simp only [Except.map] at h
        cases h
        exact ih hr
      · simp [Except.map] at h
    · split at h
      · cases h
        rfl
      · rcases hr : split_nodes_delimiter rest d tt with e' | ns <;> rw [hr] at h
        · simp only [Except.map] at h
          cases h
          exact ih hr
        · simp [Except.map] at h

/-- C9: the defensive malformed-syntax failure branches of the image and link
passes are unreachable — both passes succeed on every node list, because every
extracted pair's literal syntax can always be re-located by the
first-occurrence split — and consequently the only error the full tokenizer
pipeline can produce is the unclosed-delimiter error of the delimiter passes. -/
theorem C9_theorem :
    (∀ old_nodes : List TextNode, ∃ out, split_nodes_image old_nodes = .ok out)
    ∧ (∀ old_nodes : List TextNode, ∃ out, split_nodes_link old_nodes = .ok out)
    ∧ (∀ (s e : Str), text_to_textnodes s = .error e → e = delimErrMsg) := by
  refine ⟨split_nodes_image_ok, split_nodes_link_ok, fun s e h => ?_⟩
  rcases h1 : split_nodes_delimiter [⟨s, .text, none⟩] (str "**") .bold with e1 | n1 <;>
    simp only [text_to_textnodes, h1] at h
  · cases h
    exact split_nodes_delimiter_error h1
  · rcases h2 : split_nodes_delimiter n1 (str "_") .italic with e2 | n2 <;>
      simp only [h2] at h
    · cases h
      exact split_nodes_delimiter_error h2
    · rcases h3 : split_nodes_delimiter n2 (str "`") .code with e3 | n3 <;>
        simp only [h3] at h
      · cases h
        exact split_nodes_delimiter_error h3
      · obtain ⟨n4, h4⟩ := split_nodes_image_ok n3
        simp only [h4] at h
        obtain ⟨n5, h5⟩ := split_nodes_link_ok n4
        rw [h5] at h
        cases h

/-- C9 witness: the pipeline statement applied to a concrete failing input,
whose error is the unclosed-delimiter message. -/
theorem C9_witness : str "invalid markdown, formatted section not closed" = delimErrMsg :=
  C9_theorem.2.2 (str "**bold") (str "invalid markdown, formatted section not closed") rfl
